import Mathlib

/-!
Verification of the cognate-coding pipeline in `cognates.py` (lexirumah-data).

The development shallowly embeds the pure computational core of the script:
the IPA tokenizer (`tokenize`), the alignment synthesizer (`alignment`),
the cognate resolver of step 2, the compact cognate-ID assignment of step 3
(`COG_IDs`), the alignment validator of step 5, and the `COGNATE_SET`
renumbering of step 0.  Strings are Lean `String`s (Python iterates a str
code point by code point, matching `String.data : List Char`); fallible code
(Python `IndexError`) is modelled with `Option`; pandas tables are lists of
records; the `NaN` cell value is `Option.none` with pandas equality
semantics (`NaN == x` is false).
-/

/-! ## The tokenizer (`tokenize` in cognates.py) -/

/-- The ASCII apostrophe, the stress mark used by the tokenizer. -/
def apos : Char := Char.ofNat 39

/-- The fixed visually-ambiguous-character substitution table of `tokenize`
(default argument `substitutions` in the Python source). -/
def substChar (c : Char) : Char :=
  if c = 'ä' then 'a'
  else if c = 'ε' then 'ɛ'
  else if c = 'é' then 'e'
  else if c = 'á' then 'a'
  else if c = 'í' then 'i'
  else if c = 'Ɂ' then 'ʔ'
  else if c = 'ˈ' then apos
  else if c = ':' then 'ː'
  else if c = 'ɡ' then 'g'
  else c

/-- The phonetic classification tables passed to `tokenize` (in the Python
source they are the glyph lists extracted from the CLPA data; the function
receives them as parameters, so the embedding does too).  Python's
`symbol in consonants` tests a single code point against the list. -/
structure TokCfg where
  consonants : List Char
  vowels : List Char
deriving DecidableEq

/-- The scanning loop of `tokenize`: one accumulating buffer `segment` and a
pending-`stress` flag, processed symbol by symbol; the final buffer is always
yielded, even when empty (the unconditional trailing `yield segment`). -/
def scanTok (cfg : TokCfg) : List Char → String → Bool → List String
  | [], segment, _ => [segment]
  | c :: rest, segment, stress =>
    let s := substChar c
    if s = apos then
      (if segment = "" then [] else [segment]) ++ scanTok cfg rest "" true
    else if s = '_' ∨ s = '-' then
      (if segment = "" then [] else [segment]) ++ [String.mk [s]] ++ scanTok cfg rest "" stress
    else if s = '.' then
      (if segment = "" then [] else [segment]) ++ scanTok cfg rest "" stress
    else if s ∈ cfg.consonants then
      (if segment = "" then [] else [segment]) ++ scanTok cfg rest (String.mk [s]) false
    else if s ∈ cfg.vowels then
      (if segment = "" then [] else [segment]) ++
        scanTok cfg rest (if stress then String.mk [apos, s] else String.mk [s]) stress
    else
      scanTok cfg rest (String.mk (segment.data ++ [s])) stress

/-- `tokenize(form)`: strips a leading reconstruction marker `*`, then scans.
On the empty string the Python generator raises `IndexError` at `form[0]`,
modelled as `none`. -/
def tokenize (cfg : TokCfg) (form : String) : Option (List String) :=
  match form.data with
  | [] => none
  | c :: rest => some (scanTok cfg (if c = '*' then rest else c :: rest) "" false)

/-- A small concrete classification table used for concrete evaluations:
`t`, `m`, `p`, `b` are CLPA consonants, `a` and `i` CLPA vowels. -/
def cfgDemo : TokCfg := { consonants := ['t', 'm', 'p', 'b'], vowels := ['a', 'i'] }


/-! ## The alignment synthesizer (`alignment` in cognates.py) -/

/-- Python whitespace as recognized by `str.split()` on ASCII input. -/
def wsChar (c : Char) : Bool :=
  c == ' ' || c == '\t' || c == '\n' || c == '\r' || c == '\x0b' || c == '\x0c'

/-- Worker for `pySplit`: accumulates the current word in `cur`. -/
def wordsAux : List Char → List Char → List String
  | [], cur => if cur = [] then [] else [String.mk cur]
  | c :: rest, cur =>
    if wsChar c then (if cur = [] then [] else [String.mk cur]) ++ wordsAux rest []
    else wordsAux rest (cur ++ [c])

/-- Python `str.split()` with no argument: split on runs of whitespace,
discarding empty fields. -/
def pySplit (s : String) : List String := wordsAux s.data []

/-- Python `" ".join(...)`. -/
def joinSp : List String → String
  | [] => String.mk []
  | [t] => t
  | t :: u :: ts => String.mk (t.data ++ ' ' :: (joinSp (u :: ts)).data)

/-- Character map of `form.replace("\n", ";").replace(" ", "_")`; the two
single-character replacements compose to one map because the first never
produces a space. -/
def normFormChar (c : Char) : Char :=
  if c = '\n' then ';' else if c = ' ' then '_' else c

/-- `str(form).replace("\n", ";").replace(" ", "_")` from `alignment`. -/
def normForm (s : String) : String := String.mk (s.data.map normFormChar)

/-- Character map of `alignment.replace("\n", ";")`. -/
def normAlignChar (c : Char) : Char := if c = '\n' then ';' else c

/-- `alignment.replace("\n", ";")` from `alignment`. -/
def normAlign (s : String) : String := String.mk (s.data.map normAlignChar)

/-- One loop iteration of the `alignment` generator: given a form's `IPA`
cell and its `ALIGNMENT` cell, produce the output `ALIGNMENT` cell.  `none`
models the `IndexError` that `tokenize` raises on an empty (normalized)
form. -/
def alignmentEntry (cfg : TokCfg) (form algn : String) : Option String :=
  let f := normForm form
  let a := normAlign algn
  match tokenize cfg f with
  | none => none
  | some toks =>
    if a = "" ∨ a = "nan" then some (joinSp toks)
    else if toks ≠ (pySplit a).filter (fun t => t != "-") then some (joinSp toks)
    else some a


/-! ## The cognate resolver (step 2 of cognates.py) -/

/-- One record of the step-2 tables.  `DOCULECT` and `CONCEPT` are non-null
there (the script drops null rows before the loop); `COGNATE_SET` may be the
pandas `NaN`, modelled as `none`.  `AUTO_COGID` is the automatic cluster
label (only consulted on rows of the automatic table). -/
structure GRow where
  doculect : String
  doculect_id : String
  concept : String
  concept_id : String
  ipa : String
  cognate_set : Option String
  auto_cogid : Nat
deriving DecidableEq

/-- pandas scalar equality on a possibly-`NaN` cell: `NaN == x` is false,
even for `x = NaN`. -/
def optEq (a b : Option String) : Bool :=
  match a, b with
  | some x, some y => x == y
  | _, _ => false

/-- Python `str(...)` on a `COGNATE_SET` cell: `str(nan) = "nan"`. -/
def labelStr (o : Option String) : String := o.getD "nan"

/-- The `reset` condition of the step-2 loop: label literally `"nan"`, or
falsy (empty string), or null, or listed in `--reset`, or the row's
`DOCULECT_ID` or `CONCEPT` is listed in `--reset`. -/
def resetCond (resets : List String) (r : GRow) : Bool :=
  r.cognate_set == some "nan" || r.cognate_set == some "" || r.cognate_set == none
    || resets.contains (labelStr r.cognate_set)
    || resets.contains r.doculect_id
    || resets.contains r.concept

/-- The automatic-table lookup filter: rows matching the processed row's
`(DOCULECT, IPA, CONCEPT)`. -/
def match3 (row r : GRow) : Bool :=
  r.doculect == row.doculect && r.ipa == row.ipa && r.concept == row.concept

/-- `autocognates[autocognates["DOCULECT"] == ...]` etc.: all automatic rows
matching the processed row's identity triple. -/
def autoMatches (auto : List GRow) (row : GRow) : List GRow :=
  auto.filter (match3 row)

/-- `autocognates[autocognates["AUTO_COGID"] == cogid]`: the representative
pool selected by a matched automatic row's label. -/
def autoPool (auto : List GRow) (m : GRow) : List GRow :=
  auto.filter (fun r => r.auto_cogid == m.auto_cogid)

/-- `cognates[cognates["COGNATE_SET"] == row["COGNATE_SET"]]`: the working
table rows sharing the processed row's own label, with pandas `NaN`
semantics (a null label matches nothing, including itself). -/
def ownLabelPool (cog : List GRow) (row : GRow) : List GRow :=
  cog.filter (fun r => optEq r.cognate_set row.cognate_set)

/-- One iteration of the step-2 loop.  Result: the representative row, the
`"Grouping ... automatically"` notice flag (printed whenever the row was
reset), and the `"Cogid NaN and no automatic coding found"` notice flag
(printed when the representative pool was empty, i.e. `iloc[0]` raised
`IndexError` and the row itself became the representative). -/
def resolveRow (cog auto : List GRow) (resets : List String) (row : GRow) :
    GRow × Bool × Bool :=
  let pool :=
    if resetCond resets row then
      match autoMatches auto row with
      | m :: _ => autoPool auto m
      | [] => ownLabelPool cog row
    else ownLabelPool cog row
  match pool with
  | rep :: _ => (rep, resetCond resets row, false)
  | [] => (row, resetCond resets row, true)

/-- The `LONG_COGID` written for one row: the representative's
`(DOCULECT_ID, CONCEPT, IPA)` triple. -/
def rowLongCogid (cog auto : List GRow) (resets : List String) (row : GRow) :
    String × String × String :=
  let rep := (resolveRow cog auto resets row).1
  (rep.doculect_id, rep.concept, rep.ipa)

/-- The `LONG_COGID` column: the loop writes one value per working-table
row, each computed from the static tables only. -/
def longCogidColumn (cog auto : List GRow) (resets : List String) :
    List (String × String × String) :=
  cog.map (rowLongCogid cog auto resets)

/-- One step of the `pairs` accumulation: `pairs.add((row["CONCEPT"],
representative["CONCEPT"]))` when the two concepts differ (Python set
membership on the ordered tuple). -/
def pairStep (cog auto : List GRow) (resets : List String)
    (acc : List (String × String)) (row : GRow) : List (String × String) :=
  let rep := (resolveRow cog auto resets row).1
  if row.concept ≠ rep.concept then
    if (row.concept, rep.concept) ∈ acc then acc else acc ++ [(row.concept, rep.concept)]
  else acc

/-- The cross-meaning observation set `pairs` after the step-2 loop,
as the list of its elements in insertion order. -/
def pairsList (cog auto : List GRow) (resets : List String) : List (String × String) :=
  cog.foldl (pairStep cog auto resets) []

/-! ## Compact cognate IDs (`COG_IDs` in step 3 of cognates.py) -/

/-- `if i not in COG_IDs: COG_IDs.append(i)` — one step of building the
first-seen list of distinct keys. -/
def insertKey {K : Type} [DecidableEq K] (acc : List K) (k : K) : List K :=
  if k ∈ acc then acc else acc ++ [k]

/-- The `COG_IDs` list: distinct keys in first-seen order. -/
def firstSeen {K : Type} [DecidableEq K] (ks : List K) : List K :=
  ks.foldl insertKey []

/-- Structural description of the first-seen list: keep each key's first
occurrence, drop the later ones. -/
def uniqKeys {K : Type} [DecidableEq K] : List K → List K
  | [] => []
  | k :: ks => k :: (uniqKeys ks).filter (fun x => x != k)

/-- Python `list.index`: the position of the first occurrence (`0` beyond
the end, never consulted there). -/
def idxOf {K : Type} [DecidableEq K] : List K → K → Nat
  | [], _ => 0
  | a :: t, k => if a = k then 0 else idxOf t k + 1

/-- `COG_IDs.index(key) + 1`: the compact cognate ID of a key. -/
def cogidOfKey {K : Type} [DecidableEq K] (ks : List K) (k : K) : Nat :=
  idxOf (firstSeen ks) k + 1

/-- A step-3 record: its `LONG_COGID` triple and its `CONCEPT_ID`. -/
structure CRow where
  long_cogid : String × String × String
  concept_id : String
deriving DecidableEq

/-- The identity key of a row: `LONG_COGID` alone, or the
`(LONG_COGID, CONCEPT_ID)` tuple when `--within-meaning` is set.  Both modes
are embedded in one key type; the second component is `none` exactly in
non-meaning-scoped mode, so key equality coincides with the Python tuple
(resp. plain value) equality of the corresponding mode. -/
def rowKeyPair (wm : Bool) (r : CRow) : (String × String × String) × Option String :=
  (r.long_cogid, if wm then some r.concept_id else none)

/-- The `COGID` column assigned in step 3. -/
def cogidColumn (wm : Bool) (rows : List CRow) : List Nat :=
  (rows.map (rowKeyPair wm)).map (cogidOfKey (rows.map (rowKeyPair wm)))

/-! ## The alignment validator (step 5 of cognates.py) -/

/-- A step-5 record: its `COGID`, its `ALIGNMENT` cell (null modelled as
`none`) and its `AUTO_ALIGNMENT` cell. -/
structure VRow where
  cogid : Nat
  alignment : Option String
  auto_alignment : Option String
deriving DecidableEq

/-- `None if pandas.isnull(x) else len(x.split())`: the alignment token
count of one row, with a missing alignment as the distinct value `none`. -/
def alignLen (r : VRow) : Option Nat := r.alignment.map (fun s => (pySplit s).length)

/-- `alignments.loc[i].get('AUTO_ALIGNMENT', '-')`: the row's
`AUTO_ALIGNMENT` value when that column is present, else the literal
`"-"`. -/
def fallbackAlign (hasAuto : Bool) (r : VRow) : Option String :=
  if hasAuto then r.auto_alignment else some "-"

/-- The step-5 validation pass: within each `COGID` group, if the distinct
alignment token counts (`is_aligned`, a Python set) are not a single value,
overwrite every member's alignment with its fallback. -/
def validateAlignments (hasAuto : Bool) (rows : List VRow) : List VRow :=
  rows.map (fun r =>
    if ((rows.filter (fun x => x.cogid == r.cogid)).map alignLen).toFinset.card ≠ 1 then
      { r with alignment := fallbackAlign hasAuto r }
    else r)

/-! ## The `COGNATE_SET` renumbering (step 0 of cognates.py) -/

/-- `i == 'nan' or pandas.isnull(i) or not i`: the cell values replaced by
the empty string. -/
def cellNanish (i : Option String) : Bool :=
  i == some "nan" || i == none || i == some ""

/-- The step-0 renumbering `list(set(data["COGNATE_SET"])).index(i) + 1`.
`enum` stands for `list(set(...))`: some fixed enumeration of the distinct
column values (Python set order is arbitrary but fixed within a run).
The output cell is `none` for the empty string, `some n` for the integer
`n`. -/
def renumbered (enum vals : List (Option String)) : List (Option Nat) :=
  vals.map (fun i => if cellNanish i then none else some (idxOf enum i + 1))

/-! ## Concrete instances used for witnesses and counterexamples -/

/-- A working-table row whose class representative (the first row sharing
label `"1"`) has concept `"B"` while this row has concept `"A"`. -/
def gRowB : GRow := ⟨"L1", "l1", "B", "cb", "x", some "1", 0⟩

/-- See `gRowB`. -/
def gRowA : GRow := ⟨"L2", "l2", "A", "ca", "y", some "1", 0⟩

/-- A two-row working table whose second row's class crosses a meaning
boundary. -/
def gTable : List GRow := [gRowB, gRowA]

/-- A reset row (null cognate label) with a matching automatic row. -/
def gReset : GRow := ⟨"L1", "l1", "C1", "c1", "ipa1", none, 0⟩

/-- The automatic row matching `gReset` on `(DOCULECT, IPA, CONCEPT)`. -/
def gAuto : GRow := ⟨"L1", "l9", "C1", "c1", "ipa1", some "raw", 7⟩

/-- A one-row automatic table. -/
def gAutoTable : List GRow := [gAuto]

/-- Step-3 rows: two distinct `LONG_COGID`s, the first repeated. -/
def cRows : List CRow :=
  [⟨("d1", "c1", "i1"), "m1"⟩, ⟨("d2", "c2", "i2"), "m2"⟩, ⟨("d1", "c1", "i1"), "m1"⟩]

/-- Step-5 rows: cognate class 1 has token counts 3 and 2 (inconsistent),
class 2 has token counts 2 and 2 (consistent). -/
def vRows : List VRow :=
  [⟨1, some "a b c", some "x"⟩, ⟨1, some "a b", some "y"⟩,
   ⟨2, some "p q", none⟩, ⟨2, some "r s", some "z"⟩]

/-- An enumeration of the distinct `COGNATE_SET` values of `c9vals`,
standing for `list(set(...))`. -/
def c9enum : List (Option String) := [some "7", some "9", none, some ""]

/-- A `COGNATE_SET` column with a repeated label, a null, and an empty
label. -/
def c9vals : List (Option String) := [some "7", none, some "7", some "9", some ""]

/-! ## Basic facts about the scanner -/

theorem data_mk (l : List Char) : (String.mk l).data = l := rfl

theorem mk_data (s : String) : String.mk s.data = s := rfl

theorem mk_ne_empty {l : List Char} (h : l ≠ []) : String.mk l ≠ "" :=
  fun he => h (congrArg String.data he)

/-- Scanner step, stress-marker branch. -/
theorem scanTok_apos (cfg : TokCfg) (c : Char) (hc : substChar c = apos)
    (rest : List Char) (seg : String) (st : Bool) :
    scanTok cfg (c :: rest) seg st =
      (if seg = "" then [] else [seg]) ++ scanTok cfg rest "" true := by
  simp [scanTok, hc]

/-- Scanner step, boundary-marker branch. -/
theorem scanTok_boundary (cfg : TokCfg) (c : Char)
    (h1 : substChar c ≠ apos) (h2 : substChar c = '_' ∨ substChar c = '-')
    (rest : List Char) (seg : String) (st : Bool) :
    scanTok cfg (c :: rest) seg st =
      (if seg = "" then [] else [seg]) ++ [String.mk [substChar c]] ++
        scanTok cfg rest "" st := by
  simp only [scanTok]
  rw [if_neg h1, if_pos h2]

/-- Scanner step, syllable-dot branch. -/
theorem scanTok_dot (cfg : TokCfg) (c : Char) (hc : substChar c = '.')
    (rest : List Char) (seg : String) (st : Bool) :
    scanTok cfg (c :: rest) seg st =
      (if seg = "" then [] else [seg]) ++ scanTok cfg rest "" st := by
  simp [scanTok, hc, apos]

/-- Scanner step, consonant branch: note that it clears the pending-stress
flag. -/
theorem scanTok_consonant (cfg : TokCfg) (c : Char)
    (h1 : substChar c ≠ apos) (h2 : ¬(substChar c = '_' ∨ substChar c = '-'))
    (h3 : substChar c ≠ '.') (h4 : substChar c ∈ cfg.consonants)
    (rest : List Char) (seg : String) (st : Bool) :
    scanTok cfg (c :: rest) seg st =
      (if seg = "" then [] else [seg]) ++
        scanTok cfg rest (String.mk [substChar c]) false := by
  simp only [scanTok]
  rw [if_neg h1, if_neg h2, if_neg h3, if_pos h4]

/-- Scanner step, vowel branch: note that it leaves the pending-stress flag
unchanged. -/
theorem scanTok_vowel (cfg : TokCfg) (c : Char)
    (h1 : substChar c ≠ apos) (h2 : ¬(substChar c = '_' ∨ substChar c = '-'))
    (h3 : substChar c ≠ '.') (h4 : substChar c ∉ cfg.consonants)
    (h5 : substChar c ∈ cfg.vowels)
    (rest : List Char) (seg : String) (st : Bool) :
    scanTok cfg (c :: rest) seg st =
      (if seg = "" then [] else [seg]) ++
        scanTok cfg rest
          (if st then String.mk [apos, substChar c] else String.mk [substChar c]) st := by
  simp only [scanTok]
  rw [if_neg h1, if_neg h2, if_neg h3, if_neg h4, if_pos h5]

/-- Scanner step, unclassified-symbol branch. -/
theorem scanTok_other (cfg : TokCfg) (c : Char)
    (h1 : substChar c ≠ apos) (h2 : ¬(substChar c = '_' ∨ substChar c = '-'))
    (h3 : substChar c ≠ '.') (h4 : substChar c ∉ cfg.consonants)
    (h5 : substChar c ∉ cfg.vowels)
    (rest : List Char) (seg : String) (st : Bool) :
    scanTok cfg (c :: rest) seg st =
      scanTok cfg rest (String.mk (seg.data ++ [substChar c])) st := by
  simp only [scanTok]
  rw [if_neg h1, if_neg h2, if_neg h3, if_neg h4, if_neg h5]

/-- The scanner always yields at least one token (the trailing
`yield segment`). -/
theorem scanTok_length_pos (cfg : TokCfg) :
    ∀ (l : List Char) (seg : String) (st : Bool), 0 < (scanTok cfg l seg st).length := by
  intro l
  induction l with
  | nil => intro seg st; simp [scanTok]
  | cons c rest ih =>
    intro seg st
    simp only [scanTok]
    split_ifs <;>
      first
        | exact ih _ _
        | (rw [List.length_append]; exact Nat.lt_of_lt_of_le (ih _ _) (Nat.le_add_left _ _))

theorem mk_cons_ne_empty (c : Char) (l : List Char) : String.mk (c :: l) ≠ "" :=
  mk_ne_empty (by simp)

/-- C2 (counterexample): the claim asserts `tokenize "ˈtama"` returns
`["t", "'a", "m", "a"]`; on the code (with `t`, `m` CLPA consonants and `a`
a CLPA vowel) the result is `["t", "a", "m", "a"]` — the consonant branch
clears the pending-stress flag, so the stress tag never reaches the vowel. -/
theorem c2_counterexample :
    tokenize cfgDemo "ˈtama" = some ["t", "a", "m", "a"] ∧
      (["t", "a", "m", "a"] : List String) ≠ ["t", String.mk [apos, 'a'], "m", "a"] := by
  decide

/-- C2 (amended): a stress marker followed by a consonant and then a vowel
yields the two segments unstressed: scanning the consonant clears the
pending-stress flag, so the stress tag is not carried across an intervening
consonant. -/
theorem c2_theorem (cfg : TokCfg) (k v : Char)
    (hks : substChar k = k) (hvs : substChar v = v)
    (hk1 : k ≠ apos) (hk2 : k ≠ '_') (hk3 : k ≠ '-') (hk4 : k ≠ '.')
    (hkc : k ∈ cfg.consonants)
    (hv1 : v ≠ apos) (hv2 : v ≠ '_') (hv3 : v ≠ '-') (hv4 : v ≠ '.')
    (hvc : v ∉ cfg.consonants) (hvv : v ∈ cfg.vowels) :
    tokenize cfg (String.mk ['ˈ', k, v]) = some [String.mk [k], String.mk [v]] := by
  have h1 : substChar 'ˈ' = apos := by decide
  have hk2' : ¬(substChar k = '_' ∨ substChar k = '-') := by
    rw [hks]; rintro (h | h); exact hk2 h; exact hk3 h
  have hv2' : ¬(substChar v = '_' ∨ substChar v = '-') := by
    rw [hvs]; rintro (h | h); exact hv2 h; exact hv3 h
  show some (scanTok cfg (if 'ˈ' = '*' then [k, v] else 'ˈ' :: [k, v]) "" false) =
    some [String.mk [k], String.mk [v]]
  rw [if_neg (by decide)]
  rw [scanTok_apos cfg 'ˈ' h1]
  rw [scanTok_consonant cfg k (by rw [hks]; exact hk1) hk2' (by rw [hks]; exact hk4)
    (by rw [hks]; exact hkc)]
  rw [scanTok_vowel cfg v (by rw [hvs]; exact hv1) hv2' (by rw [hvs]; exact hv4)
    (by rw [hvs]; exact hvc) (by rw [hvs]; exact hvv)]
  simp [scanTok, hks, hvs, mk_cons_ne_empty]

/-- C2 (witness): the amended theorem applied at `cfgDemo`, consonant `t`,
vowel `a`. -/
theorem c2_witness :
    tokenize cfgDemo (String.mk ['ˈ', 't', 'a']) = some [String.mk ['t'], String.mk ['a']] :=
  c2_theorem cfgDemo 't' 'a' (by decide) (by decide) (by decide) (by decide) (by decide)
    (by decide) (by decide) (by decide) (by decide) (by decide) (by decide) (by decide)
    (by decide)

/-- C3 (counterexample): the claim asserts that after a stress marker only
the first of two following vowels carries the stress tag; on the code both
vowel segments carry it, because the vowel branch never clears the
pending-stress flag: `tokenize "ˈaa" = ["'a", "'a"]` and `"'a" ≠ "a"`. -/
theorem c3_counterexample :
    tokenize cfgDemo "ˈaa" = some [String.mk [apos, 'a'], String.mk [apos, 'a']] ∧
      String.mk [apos, 'a'] ≠ "a" := by
  decide

/-- C3 (amended): scanning a vowel leaves the pending-stress flag set, so a
stress marker followed by two vowels (no consonant between) produces TWO
stress-tagged segments, not one. -/
theorem c3_theorem (cfg : TokCfg) (v w : Char)
    (hvs : substChar v = v) (hwsb : substChar w = w)
    (hv1 : v ≠ apos) (hv2 : v ≠ '_') (hv3 : v ≠ '-') (hv4 : v ≠ '.')
    (hvc : v ∉ cfg.consonants) (hvv : v ∈ cfg.vowels)
    (hw1 : w ≠ apos) (hw2 : w ≠ '_') (hw3 : w ≠ '-') (hw4 : w ≠ '.')
    (hwc : w ∉ cfg.consonants) (hwv : w ∈ cfg.vowels) :
    tokenize cfg (String.mk ['ˈ', v, w]) =
      some [String.mk [apos, v], String.mk [apos, w]] := by
  have h1 : substChar 'ˈ' = apos := by decide
  have hv2' : ¬(substChar v = '_' ∨ substChar v = '-') := by
    rw [hvs]; rintro (h | h); exact hv2 h; exact hv3 h
  have hw2' : ¬(substChar w = '_' ∨ substChar w = '-') := by
    rw [hwsb]; rintro (h | h); exact hw2 h; exact hw3 h
  show some (scanTok cfg (if 'ˈ' = '*' then [v, w] else 'ˈ' :: [v, w]) "" false) =
    some [String.mk [apos, v], String.mk [apos, w]]
  rw [if_neg (by decide)]
  rw [scanTok_apos cfg 'ˈ' h1]
  rw [scanTok_vowel cfg v (by rw [hvs]; exact hv1) hv2' (by rw [hvs]; exact hv4)
    (by rw [hvs]; exact hvc) (by rw [hvs]; exact hvv)]
  rw [scanTok_vowel cfg w (by rw [hwsb]; exact hw1) hw2' (by rw [hwsb]; exact hw4)
    (by rw [hwsb]; exact hwc) (by rw [hwsb]; exact hwv)]
  simp [scanTok, hvs, hwsb, mk_cons_ne_empty]

/-- C3 (witness): the amended theorem applied at `cfgDemo` with the vowel
`a` twice. -/
theorem c3_witness :
    tokenize cfgDemo (String.mk ['ˈ', 'a', 'a']) =
      some [String.mk [apos, 'a'], String.mk [apos, 'a']] :=
  c3_theorem cfgDemo 'a' 'a' (by decide) (by decide) (by decide) (by decide) (by decide)
    (by decide) (by decide) (by decide) (by decide) (by decide) (by decide) (by decide)
    (by decide) (by decide)

/-- C8 (counterexample): the claim asserts `tokenize` terminates without
error on EVERY transcription string; on the empty string the Python
generator raises `IndexError` at `form[0]` (modelled as `none`), producing
no token sequence at all. -/
theorem c8_counterexample : tokenize cfgDemo "" = none := rfl

/-- C8 (amended): for every NON-empty transcription the call succeeds and
yields at least one element — the final accumulating buffer is always
yielded, even when empty. -/
theorem c8_theorem (cfg : TokCfg) (form : String) (h : form ≠ "") :
    ∃ toks, tokenize cfg form = some toks ∧ 0 < toks.length := by
  cases form with
  | mk data =>
    cases data with
    | nil => exact absurd rfl h
    | cons c rest => exact ⟨_, rfl, scanTok_length_pos cfg _ "" false⟩

/-- C8 (witness): the amended theorem applied at the one-character form
`"a"`. -/
theorem c8_witness :
    ("a" : String) ≠ "" ∧ ∃ toks, tokenize cfgDemo "a" = some toks ∧ 0 < toks.length :=
  ⟨by decide, c8_theorem cfgDemo "a" (by decide)⟩

/-! ## Facts about Python split and join -/

theorem data_eq_nil {s : String} : s.data = [] ↔ s = "" := by
  cases s with
  | mk d => exact ⟨fun h => congrArg String.mk h, fun h => congrArg String.data h⟩

theorem mem_flush {seg t : String} (h : t ∈ (if seg = "" then [] else [seg])) : t = seg := by
  split at h
  · simp at h
  · simpa using h

/-- Splitting consumes a whitespace-free block into the current word. -/
theorem wordsAux_word :
    ∀ (w : List Char), (∀ c ∈ w, wsChar c = false) →
      ∀ (l cur : List Char), wordsAux (w ++ l) cur = wordsAux l (cur ++ w) := by
  intro w
  induction w with
  | nil => intro _ l cur; simp
  | cons c w ih =>
    intro h l cur
    have hc : wsChar c = false := h c (List.mem_cons_self c w)
    have hw : ∀ x ∈ w, wsChar x = false := fun x hx => h x (List.mem_cons_of_mem c hx)
    show wordsAux (c :: (w ++ l)) cur = _
    rw [wordsAux, if_neg (by simp [hc]), ih hw l (cur ++ [c])]
    simp

/-- `str.split()` never produces an empty field. -/
theorem wordsAux_ne_empty :
    ∀ (l cur : List Char) (t : String), t ∈ wordsAux l cur → t ≠ "" := by
  intro l
  induction l with
  | nil =>
    intro cur t ht
    rw [wordsAux] at ht
    split at ht
    · simp at ht
    · next h => rw [List.mem_singleton] at ht; subst ht; exact mk_ne_empty h
  | cons c rest ih =>
    intro cur t ht
    rw [wordsAux] at ht
    split at ht
    · rcases List.mem_append.mp ht with hl | hr
      · split at hl
        · simp at hl
        · next h => rw [List.mem_singleton] at hl; subst hl; exact mk_ne_empty h
      · exact ih [] t hr
    · exact ih (cur ++ [c]) t ht

/-- Splitting a space-join recovers the non-empty tokens, provided no token
contains whitespace (Python: `" ".join(ts).split()`). -/
theorem pySplit_joinSp :
    ∀ (ts : List String), (∀ t ∈ ts, ∀ c ∈ t.data, wsChar c = false) →
      pySplit (joinSp ts) = ts.filter (fun t => t != "") := by
  intro ts
  induction ts with
  | nil => intro _; rfl
  | cons t ts ih =>
    intro h
    have ht : ∀ c ∈ t.data, wsChar c = false := h t (List.mem_cons_self t ts)
    have hts : ∀ u ∈ ts, ∀ c ∈ u.data, wsChar c = false :=
      fun u hu => h u (List.mem_cons_of_mem t hu)
    cases ts with
    | nil =>
      show wordsAux t.data [] = List.filter (fun t => t != "") [t]
      have h0 := wordsAux_word t.data ht [] []
      rw [List.append_nil] at h0
      simp only [List.nil_append] at h0
      rw [h0, wordsAux]
      by_cases he : t = ""
      · subst he; simp [List.filter_cons]
      · rw [if_neg (fun hd => he (data_eq_nil.mp hd)), mk_data, List.filter_cons]
        simp [bne_iff_ne, he]
    | cons u ts2 =>
      show wordsAux (t.data ++ ' ' :: (joinSp (u :: ts2)).data) [] = _
      rw [wordsAux_word t.data ht _ [], List.nil_append, wordsAux,
        if_pos (by decide : wsChar ' ' = true)]
      rw [show wordsAux (joinSp (u :: ts2)).data [] = pySplit (joinSp (u :: ts2)) from rfl,
        ih hts]
      by_cases he : t = ""
      · subst he; simp [List.filter_cons]
      · rw [if_neg (fun hd => he (data_eq_nil.mp hd)), mk_data, List.filter_cons]
        by_cases hu : u = "" <;> simp [List.filter_cons, bne_iff_ne, he, hu]

/-! ## Whitespace provenance of tokenizer output -/

theorem wsChar_substChar {c : Char} (h : wsChar c = false) : wsChar (substChar c) = false := by
  unfold substChar
  split_ifs <;> first | decide | exact h

theorem wsChar_apos : wsChar apos = false := by decide

/-- Every token the scanner yields is whitespace-free, provided the input
symbols and the current buffer are. -/
theorem scanTok_noWS (cfg : TokCfg) :
    ∀ (l : List Char) (seg : String) (st : Bool),
      (∀ c ∈ l, wsChar c = false) → (∀ c ∈ seg.data, wsChar c = false) →
      ∀ t ∈ scanTok cfg l seg st, ∀ c ∈ t.data, wsChar c = false := by
  intro l
  induction l with
  | nil =>
    intro seg st _ hseg t ht
    rw [scanTok, List.mem_singleton] at ht
    subst ht; exact hseg
  | cons c rest ih =>
    intro seg st hl hseg t ht
    have hc : wsChar c = false := hl c (List.mem_cons_self c rest)
    have hs : wsChar (substChar c) = false := wsChar_substChar hc
    have hrest : ∀ x ∈ rest, wsChar x = false := fun x hx => hl x (List.mem_cons_of_mem c hx)
    have hempty : ∀ x ∈ ("" : String).data, wsChar x = false := by intro x hx; simp at hx
    by_cases h1 : substChar c = apos
    · rw [scanTok_apos cfg c h1] at ht
      rcases List.mem_append.mp ht with hf | hr
      · exact (mem_flush hf) ▸ hseg
      · exact ih "" true hrest hempty t hr
    · by_cases h2 : substChar c = '_' ∨ substChar c = '-'
      · rw [scanTok_boundary cfg c h1 h2] at ht
        rcases List.mem_append.mp ht with hf | hr
        · rcases List.mem_append.mp hf with hf2 | hm
          · exact (mem_flush hf2) ▸ hseg
          · rw [List.mem_singleton] at hm
            subst hm
            intro x hx
            rw [data_mk, List.mem_singleton] at hx
            exact hx ▸ hs
        · exact ih "" st hrest hempty t hr
      · by_cases h3 : substChar c = '.'
        · rw [scanTok_dot cfg c h3] at ht
          rcases List.mem_append.mp ht with hf | hr
          · exact (mem_flush hf) ▸ hseg
          · exact ih "" st hrest hempty t hr
        · by_cases h4 : substChar c ∈ cfg.consonants
          · rw [scanTok_consonant cfg c h1 h2 h3 h4] at ht
            rcases List.mem_append.mp ht with hf | hr
            · exact (mem_flush hf) ▸ hseg
            · refine ih _ false hrest ?_ t hr
              intro x hx
              rw [data_mk, List.mem_singleton] at hx
              exact hx ▸ hs
          · by_cases h5 : substChar c ∈ cfg.vowels
            · rw [scanTok_vowel cfg c h1 h2 h3 h4 h5] at ht
              rcases List.mem_append.mp ht with hf | hr
              · exact (mem_flush hf) ▸ hseg
              · refine ih _ st hrest ?_ t hr
                intro x hx
                by_cases hst : st = true
                · rw [if_pos hst, data_mk] at hx
                  rcases List.mem_cons.mp hx with hx | hx
                  · exact hx ▸ wsChar_apos
                  · rw [List.mem_singleton] at hx
                    exact hx ▸ hs
                · rw [if_neg hst, data_mk, List.mem_singleton] at hx
                  exact hx ▸ hs
            · rw [scanTok_other cfg c h1 h2 h3 h4 h5] at ht
              refine ih _ st hrest ?_ t ht
              intro x hx
              rw [data_mk] at hx
              rcases List.mem_append.mp hx with hx | hx
              · exact hseg x hx
              · rw [List.mem_singleton] at hx
                exact hx ▸ hs

/-- The scanner result decomposes as some emitted tokens followed by the
scan of the remaining symbols. -/
theorem scanTok_cons_decomp (cfg : TokCfg) (c : Char) (rest : List Char)
    (seg : String) (st : Bool) :
    ∃ A seg2 st2, scanTok cfg (c :: rest) seg st = A ++ scanTok cfg rest seg2 st2 := by
  simp only [scanTok]
  split_ifs <;> first | exact ⟨_, _, _, rfl⟩ | exact ⟨[], _, _, rfl⟩

/-- A `_` among the scanned symbols always surfaces as its own `"_"`
token. -/
theorem scanTok_mem_underscore (cfg : TokCfg) :
    ∀ (l : List Char) (seg : String) (st : Bool), '_' ∈ l → "_" ∈ scanTok cfg l seg st := by
  intro l
  induction l with
  | nil => intro seg st h; simp at h
  | cons c rest ih =>
    intro seg st h
    by_cases hc : c = '_'
    · subst hc
      rw [scanTok_boundary cfg '_' (by decide) (by decide)]
      exact List.mem_append_left _ (List.mem_append_right _ (by decide))
    · have hrest : '_' ∈ rest := by
        rcases List.mem_cons.mp h with h0 | h0
        · exact absurd h0.symm hc
        · exact h0
      obtain ⟨A, seg2, st2, hd⟩ := scanTok_cons_decomp cfg c rest seg st
      rw [hd]
      exact List.mem_append_right A (ih seg2 st2 hrest)

/-! ## Claims C1 and C10: the alignment round-trip -/

theorem normForm_noWS {form : String}
    (hws : ∀ c ∈ form.data, wsChar c = true → c = ' ' ∨ c = '\n') :
    ∀ c ∈ (normForm form).data, wsChar c = false := by
  intro c hc
  simp only [normForm, data_mk] at hc
  obtain ⟨c0, hc0, rfl⟩ := List.mem_map.mp hc
  by_cases h1 : c0 = '\n'
  · subst h1; decide
  · by_cases h2 : c0 = ' '
    · subst h2; decide
    · rw [show normFormChar c0 = c0 from by simp [normFormChar, h1, h2]]
      rcases Bool.eq_false_or_eq_true (wsChar c0) with hb | hb
      · rcases hws c0 hc0 hb with h | h
        · exact absurd h h2
        · exact absurd h h1
      · exact hb

theorem alignmentEntry_eq_of_tok {cfg : TokCfg} {form : String} {toks : List String}
    (htok : tokenize cfg (normForm form) = some toks) (algn : String) :
    alignmentEntry cfg form algn =
      if normAlign algn = "" ∨ normAlign algn = "nan" then some (joinSp toks)
      else if toks ≠ (pySplit (normAlign algn)).filter (fun t => t != "-") then
        some (joinSp toks)
      else some (normAlign algn) := by
  simp only [alignmentEntry]
  rw [htok]

/-- C1 (amended): for a form whose only whitespace is spaces and newlines
(both removed by the normalization), the synthesized alignment's gap-free
projection equals the tokenization of the normalized transcription with its
empty segments and its `"-"` boundary tokens removed — exact equality, as
the claim states it, holds exactly when the tokenization contains neither. -/
theorem c1_theorem (cfg : TokCfg) (form algn : String)
    (hws : ∀ c ∈ form.data, wsChar c = true → c = ' ' ∨ c = '\n') :
    ∀ toks out, tokenize cfg (normForm form) = some toks →
      alignmentEntry cfg form algn = some out →
      (pySplit out).filter (fun t => t != "-") =
        toks.filter (fun t => t != "" && t != "-") := by
  intro toks out htok hout
  have hnoWS := normForm_noWS hws
  have htoksWS : ∀ t ∈ toks, ∀ c ∈ t.data, wsChar c = false := by
    cases hd : (normForm form).data with
    | nil =>
      unfold tokenize at htok
      rw [hd] at htok
      simp at htok
    | cons c rest =>
      unfold tokenize at htok
      rw [hd] at htok
      have htoks : toks = scanTok cfg (if c = '*' then rest else c :: rest) "" false :=
        (Option.some.inj htok).symm
      rw [htoks]
      refine scanTok_noWS cfg _ "" false ?_ ?_
      · intro x hx
        apply hnoWS
        rw [hd]
        split at hx
        · exact List.mem_cons_of_mem c hx
        · exact hx
      · intro x hx; simp at hx
  have hsplit : pySplit (joinSp toks) = toks.filter (fun t => t != "") :=
    pySplit_joinSp toks htoksWS
  rw [alignmentEntry_eq_of_tok htok algn] at hout
  split_ifs at hout with hA hB
  · have hj : out = joinSp toks := (Option.some.inj hout).symm
    subst hj
    rw [hsplit, List.filter_filter]
    exact List.filter_congr (fun t _ => by rw [Bool.and_comm])
  · have hj : out = joinSp toks := (Option.some.inj hout).symm
    subst hj
    rw [hsplit, List.filter_filter]
    exact List.filter_congr (fun t _ => by rw [Bool.and_comm])
  · have hkeep : toks = (pySplit (normAlign algn)).filter (fun t => t != "-") :=
      not_ne_iff.mp hB
    have hj : out = normAlign algn := (Option.some.inj hout).symm
    subst hj
    rw [← hkeep]
    symm
    apply List.filter_eq_self.mpr
    intro t htmem
    have htmem2 : t ∈ (pySplit (normAlign algn)).filter (fun t => t != "-") := by
      rw [← hkeep]; exact htmem
    have h1 : t ≠ "" :=
      wordsAux_ne_empty _ [] t (List.mem_filter.mp htmem2).1
    have h2 : (t != "-") = true := (List.mem_filter.mp htmem2).2
    rw [Bool.and_eq_true]
    exact ⟨bne_iff_ne.mpr h1, h2⟩

/-- C1 (counterexample): the claim's exact round-trip fails on the form
`"-"` with no pre-existing alignment.  Tokenization yields `["-", ""]` (the
boundary marker plus the always-yielded empty final buffer); the synthesized
alignment `"- "`, split and stripped of gap symbols, is `[]`. -/
theorem c1_counterexample :
    alignmentEntry cfgDemo "-" "" = some "- " ∧
    tokenize cfgDemo (normForm "-") = some ["-", ""] ∧
    (pySplit "- ").filter (fun t => t != "-") = ([] : List String) ∧
    (([] : List String) ≠ ["-", ""]) := by
  decide

/-- C1 (witness): the amended theorem applied at the form `"ta"` with no
pre-existing alignment. -/
theorem c1_witness :
    (pySplit "t a").filter (fun t => t != "-") =
      (["t", "a"] : List String).filter (fun t => t != "" && t != "-") :=
  c1_theorem cfgDemo "ta" "" (by decide) ["t", "a"] "t a" (by decide) (by decide)

theorem normFormChar_idem (c : Char) : normFormChar (normFormChar c) = normFormChar c := by
  by_cases h1 : c = '\n'
  · subst h1; decide
  · by_cases h2 : c = ' '
    · subst h2; decide
    · simp [normFormChar, h1, h2]

theorem normAlignChar_idem (c : Char) : normAlignChar (normAlignChar c) = normAlignChar c := by
  by_cases h1 : c = '\n'
  · subst h1; decide
  · simp [normAlignChar, h1]

theorem normForm_idem (s : String) : normForm (normForm s) = normForm s := by
  simp only [normForm, data_mk, List.map_map]
  exact congrArg String.mk (List.map_congr_left fun c _ => normFormChar_idem c)

theorem normAlign_idem (s : String) : normAlign (normAlign s) = normAlign s := by
  simp only [normAlign, data_mk, List.map_map]
  exact congrArg String.mk (List.map_congr_left fun c _ => normAlignChar_idem c)

/-- C10 (amended): the `alignment` generator first normalizes the form
(newline to `";"`, space to `"_"`) and the existing alignment (newline to
`";"`) — so its result is invariant under pre-normalizing its inputs — and a
space in the raw transcription surfaces as a standalone `"_"` boundary token
of the tokenization of the normalized form.  The gap-free round-trip with
respect to this normalized form holds only in the amended sense of C1 (empty
segments and `"-"` tokens removed), not as an exact equality. -/
theorem c10_theorem (cfg : TokCfg) (form algn : String) :
    alignmentEntry cfg form algn = alignmentEntry cfg (normForm form) (normAlign algn) ∧
    ∀ toks, ' ' ∈ form.data → tokenize cfg (normForm form) = some toks → "_" ∈ toks := by
  constructor
  · simp only [alignmentEntry, normForm_idem, normAlign_idem]
  · intro toks hsp htok
    have hmem : '_' ∈ (normForm form).data := by
      simp only [normForm, data_mk]
      exact List.mem_map.mpr ⟨' ', hsp, by decide⟩
    cases hd : (normForm form).data with
    | nil => rw [hd] at hmem; simp at hmem
    | cons c rest =>
      unfold tokenize at htok
      rw [hd] at htok
      have htoks : toks = scanTok cfg (if c = '*' then rest else c :: rest) "" false :=
        (Option.some.inj htok).symm
      rw [htoks]
      apply scanTok_mem_underscore
      rw [hd] at hmem
      split
      · next hstar =>
        subst hstar
        rcases List.mem_cons.mp hmem with h0 | h0
        · exact absurd h0.symm (by decide)
        · exact h0
      · exact hmem

/-- C10 (counterexample): even with respect to the normalized form, the
exact gap-free round-trip asserted by the claim fails: for the form `"."`
the tokenization is `[""]` but the synthesized alignment `""` splits to
`[]`. -/
theorem c10_counterexample :
    alignmentEntry cfgDemo "." "" = some "" ∧
    tokenize cfgDemo (normForm ".") = some [""] ∧
    (pySplit "").filter (fun t => t != "-") ≠ [""] := by
  decide

/-- C10 (witness): applying the theorem at the form `"a b"` shows the space
surfacing as a standalone `"_"` token. -/
theorem c10_witness : "_" ∈ (["a", "_", "b"] : List String) :=
  (c10_theorem cfgDemo "a b" "").2 ["a", "_", "b"] (by decide) (by decide)

/-! ## Claim C4: the compact cognate-ID assignment -/

theorem mem_uniqKeys {K : Type} [DecidableEq K] {a : K} :
    ∀ {ks : List K}, a ∈ uniqKeys ks ↔ a ∈ ks := by
  intro ks
  induction ks with
  | nil => simp [uniqKeys]
  | cons k t ih =>
    simp only [uniqKeys, List.mem_cons, List.mem_filter, bne_iff_ne, ih]
    by_cases h : a = k <;> simp [h]

theorem nodup_uniqKeys {K : Type} [DecidableEq K] : ∀ (ks : List K), (uniqKeys ks).Nodup := by
  intro ks
  induction ks with
  | nil => simp [uniqKeys]
  | cons k t ih =>
    rw [uniqKeys, List.nodup_cons]
    refine ⟨?_, List.Nodup.filter _ ih⟩
    intro hmem
    exact absurd rfl (bne_iff_ne.mp (List.mem_filter.mp hmem).2)

theorem foldl_insertKey {K : Type} [DecidableEq K] :
    ∀ (ks acc : List K),
      ks.foldl insertKey acc = acc ++ (uniqKeys ks).filter (fun x => decide (x ∉ acc)) := by
  intro ks
  induction ks with
  | nil => intro acc; simp [uniqKeys]
  | cons k t ih =>
    intro acc
    rw [List.foldl_cons, ih (insertKey acc k)]
    by_cases h : k ∈ acc
    · rw [show insertKey acc k = acc from if_pos h]
      rw [uniqKeys, List.filter_cons, if_neg (by simp [h])]
      congr 1
      rw [List.filter_filter]
      apply List.filter_congr
      intro x _
      by_cases hx : x = k
      · subst hx; simp [h]
      · simp [hx]
    · rw [show insertKey acc k = acc ++ [k] from if_neg h]
      rw [uniqKeys, List.filter_cons, if_pos (by simp [h])]
      rw [List.append_assoc, List.singleton_append]
      rw [List.filter_filter]
      congr 2
      apply List.filter_congr
      intro x _
      by_cases hx : x = k
      · subst hx; simp
      · simp [hx, List.mem_append]

theorem firstSeen_eq_uniqKeys {K : Type} [DecidableEq K] (ks : List K) :
    firstSeen ks = uniqKeys ks := by
  rw [firstSeen, foldl_insertKey ks []]
  simp


theorem idxOf_cons_self {K : Type} [DecidableEq K] (k : K) (t : List K) :
    idxOf (k :: t) k = 0 := by simp [idxOf]

theorem idxOf_cons_ne {K : Type} [DecidableEq K] {c k : K} (t : List K) (h : c ≠ k) :
    idxOf (c :: t) k = idxOf t k + 1 := by simp [idxOf, h]

theorem idxOf_lt_length {K : Type} [DecidableEq K] {k : K} :
    ∀ {l : List K}, k ∈ l → idxOf l k < l.length := by
  intro l
  induction l with
  | nil => intro h; simp at h
  | cons c t ih =>
    intro h
    by_cases hc : c = k
    · subst hc; rw [idxOf_cons_self]; simp
    · rw [idxOf_cons_ne t hc, List.length_cons]
      exact Nat.succ_lt_succ (ih ((List.mem_cons.mp h).resolve_left (fun he => hc he.symm)))

theorem get_idxOf {K : Type} [DecidableEq K] {k : K} :
    ∀ {l : List K} (h : k ∈ l), l.get ⟨idxOf l k, idxOf_lt_length h⟩ = k := by
  intro l
  induction l with
  | nil => intro h; simp at h
  | cons c t ih =>
    intro h
    by_cases hc : c = k
    · subst hc
      simp [idxOf]
    · have hmem : k ∈ t := (List.mem_cons.mp h).resolve_left (fun he => hc he.symm)
      have : idxOf (c :: t) k = idxOf t k + 1 := idxOf_cons_ne t hc
      rw [List.get_of_eq rfl]
      simp only [idxOf, hc, if_false, List.get_cons_succ]
      exact ih hmem

theorem idxOf_inj {K : Type} [DecidableEq K] {l : List K} {a b : K}
    (ha : a ∈ l) (hb : b ∈ l) : idxOf l a = idxOf l b ↔ a = b := by
  constructor
  · intro h
    have hga := get_idxOf ha
    have hgb := get_idxOf hb
    rw [← hga, ← hgb]
    congr 1
    exact Fin.ext h
  · intro h; rw [h]

theorem idxOf_get {K : Type} [DecidableEq K] :
    ∀ {l : List K}, l.Nodup → ∀ (n : Nat) (hn : n < l.length), idxOf l (l.get ⟨n, hn⟩) = n := by
  intro l
  induction l with
  | nil => intro _ n hn; simp at hn
  | cons c t ih =>
    intro hnd n hn
    rcases List.nodup_cons.mp hnd with ⟨hcn, hndt⟩
    cases n with
    | zero => simp [idxOf]
    | succ m =>
      have hm : m < t.length := Nat.lt_of_succ_lt_succ hn
      have hne : c ≠ t.get ⟨m, hm⟩ := fun he => hcn (he ▸ List.get_mem t m hm)
      rw [List.get_cons_succ, idxOf_cons_ne t hne, ih hndt m hm]

/-- Filtering preserves the relative order of two kept members. -/
theorem idxOf_filter_lt {K : Type} [DecidableEq K] (p : K → Bool) :
    ∀ (l : List K) (a b : K), a ∈ l → b ∈ l → p a = true → p b = true →
      (idxOf (l.filter p) a < idxOf (l.filter p) b ↔ idxOf l a < idxOf l b) := by
  intro l
  induction l with
  | nil => intro a b ha _ _ _; simp at ha
  | cons c t ih =>
    intro a b ha hb hpa hpb
    by_cases h1 : a = c
    · subst h1
      rw [List.filter_cons, if_pos hpa, idxOf_cons_self, idxOf_cons_self]
      by_cases hba : b = a
      · subst hba; rw [idxOf_cons_self, idxOf_cons_self]
      · rw [idxOf_cons_ne _ (Ne.symm hba), idxOf_cons_ne _ (Ne.symm hba)]
        simp [Nat.succ_pos]
    · by_cases h2 : b = c
      · subst h2
        rw [List.filter_cons, if_pos hpb, idxOf_cons_self, idxOf_cons_self]
        simp [Nat.not_lt_zero]
      · have hat : a ∈ t := (List.mem_cons.mp ha).resolve_left h1
        have hbt : b ∈ t := (List.mem_cons.mp hb).resolve_left h2
        rw [List.filter_cons]
        by_cases hpc : p c = true
        · rw [if_pos hpc]
          rw [idxOf_cons_ne (t.filter p) (fun he => h1 he.symm),
            idxOf_cons_ne (t.filter p) (fun he => h2 he.symm),
            idxOf_cons_ne t (fun he => h1 he.symm), idxOf_cons_ne t (fun he => h2 he.symm),
            Nat.succ_lt_succ_iff, Nat.succ_lt_succ_iff]
          exact ih a b hat hbt hpa hpb
        · rw [if_neg hpc]
          rw [idxOf_cons_ne t (fun he => h1 he.symm), idxOf_cons_ne t (fun he => h2 he.symm),
            Nat.succ_lt_succ_iff]
          exact ih a b hat hbt hpa hpb

/-- On members, `uniqKeys` preserves the relative order of first
occurrences. -/
theorem uniqKeys_idxOf_lt {K : Type} [DecidableEq K] :
    ∀ (ks : List K) (a b : K), a ∈ ks → b ∈ ks →
      (idxOf (uniqKeys ks) a < idxOf (uniqKeys ks) b ↔ idxOf ks a < idxOf ks b) := by
  intro ks
  induction ks with
  | nil => intro a b ha _; simp at ha
  | cons k t ih =>
    intro a b ha hb
    by_cases h1 : a = k
    · subst h1
      rw [uniqKeys, idxOf_cons_self, idxOf_cons_self]
      by_cases hba : b = a
      · subst hba; rw [idxOf_cons_self, idxOf_cons_self]
      · rw [idxOf_cons_ne _ (Ne.symm hba), idxOf_cons_ne _ (Ne.symm hba)]
        simp [Nat.succ_pos]
    · by_cases h2 : b = k
      · subst h2
        rw [uniqKeys, idxOf_cons_self, idxOf_cons_self]
        simp [Nat.not_lt_zero]
      · have hat : a ∈ t := (List.mem_cons.mp ha).resolve_left h1
        have hbt : b ∈ t := (List.mem_cons.mp hb).resolve_left h2
        rw [uniqKeys]
        rw [idxOf_cons_ne ((uniqKeys t).filter (fun x => x != k)) (fun he => h1 he.symm),
          idxOf_cons_ne ((uniqKeys t).filter (fun x => x != k)) (fun he => h2 he.symm),
          idxOf_cons_ne t (fun he => h1 he.symm), idxOf_cons_ne t (fun he => h2 he.symm),
          Nat.succ_lt_succ_iff, Nat.succ_lt_succ_iff]
        rw [idxOf_filter_lt (fun x => x != k) (uniqKeys t) a b (mem_uniqKeys.mpr hat)
          (mem_uniqKeys.mpr hbt) (bne_iff_ne.mpr h1) (bne_iff_ne.mpr h2)]
        exact ih a b hat hbt

theorem uniqKeys_toFinset {K : Type} [DecidableEq K] (ks : List K) :
    (uniqKeys ks).toFinset = ks.toFinset := by
  ext a
  simp [List.mem_toFinset, mem_uniqKeys]

theorem length_uniqKeys {K : Type} [DecidableEq K] (ks : List K) :
    (uniqKeys ks).length = ks.toFinset.card := by
  rw [← uniqKeys_toFinset, List.toFinset_card_of_nodup (nodup_uniqKeys ks)]

/-- C4: in both modes, the step-3 `COGID` column is a dense first-seen
bijection: row IDs agree exactly on equal keys, the assigned IDs are exactly
the integers `1..K` for `K` the number of distinct keys, and the dense order
of IDs is the order of the keys' first occurrences. -/
theorem c4_theorem (wm : Bool) (rows : List CRow) (i j : Nat)
    (hi : i < rows.length) (hj : j < rows.length) :
    ∃ ci cj,
      (cogidColumn wm rows)[i]? = some ci ∧ (cogidColumn wm rows)[j]? = some cj ∧
      (ci = cj ↔ rowKeyPair wm rows[i] = rowKeyPair wm rows[j]) ∧
      1 ≤ ci ∧ ci ≤ (rows.map (rowKeyPair wm)).toFinset.card ∧
      (∀ m, 1 ≤ m → m ≤ (rows.map (rowKeyPair wm)).toFinset.card →
        m ∈ cogidColumn wm rows) ∧
      (ci < cj ↔ idxOf (rows.map (rowKeyPair wm)) (rowKeyPair wm rows[i]) <
        idxOf (rows.map (rowKeyPair wm)) (rowKeyPair wm rows[j])) := by
  have hki : i < (rows.map (rowKeyPair wm)).length := by simpa using hi
  have hkj : j < (rows.map (rowKeyPair wm)).length := by simpa using hj
  have hgi : (rows.map (rowKeyPair wm))[i] = rowKeyPair wm rows[i] := by
    simp [List.getElem_map]
  have hgj : (rows.map (rowKeyPair wm))[j] = rowKeyPair wm rows[j] := by
    simp [List.getElem_map]
  have hmemi : rowKeyPair wm rows[i] ∈ rows.map (rowKeyPair wm) := by
    rw [← hgi]; exact List.getElem_mem hki
  have hmemj : rowKeyPair wm rows[j] ∈ rows.map (rowKeyPair wm) := by
    rw [← hgj]; exact List.getElem_mem hkj
  have hmemiU : rowKeyPair wm rows[i] ∈ firstSeen (rows.map (rowKeyPair wm)) := by
    rw [firstSeen_eq_uniqKeys]; exact mem_uniqKeys.mpr hmemi
  have hmemjU : rowKeyPair wm rows[j] ∈ firstSeen (rows.map (rowKeyPair wm)) := by
    rw [firstSeen_eq_uniqKeys]; exact mem_uniqKeys.mpr hmemj
  refine ⟨cogidOfKey (rows.map (rowKeyPair wm)) (rowKeyPair wm rows[i]),
    cogidOfKey (rows.map (rowKeyPair wm)) (rowKeyPair wm rows[j]), ?_, ?_, ?_, ?_, ?_, ?_, ?_⟩
  · rw [cogidColumn, List.getElem?_map, List.getElem?_eq_getElem hki, hgi]
    rfl
  · rw [cogidColumn, List.getElem?_map, List.getElem?_eq_getElem hkj, hgj]
    rfl
  · rw [cogidOfKey, cogidOfKey, Nat.add_right_cancel_iff]
    exact idxOf_inj hmemiU hmemjU
  · exact Nat.le_add_left 1 _
  · rw [cogidOfKey]
    have hlt : idxOf (firstSeen (rows.map (rowKeyPair wm))) (rowKeyPair wm rows[i]) <
        (firstSeen (rows.map (rowKeyPair wm))).length := idxOf_lt_length hmemiU
    rw [firstSeen_eq_uniqKeys, length_uniqKeys] at hlt
    rw [firstSeen_eq_uniqKeys]
    omega
  · intro m hm1 hm2
    have hmlen : m - 1 < (uniqKeys (rows.map (rowKeyPair wm))).length := by
      rw [length_uniqKeys]; omega
    have hkm : (uniqKeys (rows.map (rowKeyPair wm))).get ⟨m - 1, hmlen⟩ ∈
        rows.map (rowKeyPair wm) :=
      mem_uniqKeys.mp (List.get_mem _ (m - 1) hmlen)
    rw [cogidColumn]
    refine List.mem_map.mpr ⟨(uniqKeys (rows.map (rowKeyPair wm))).get ⟨m - 1, hmlen⟩, hkm, ?_⟩
    rw [cogidOfKey, firstSeen_eq_uniqKeys,
      idxOf_get (nodup_uniqKeys (rows.map (rowKeyPair wm))) (m - 1) hmlen]
    omega
  · rw [cogidOfKey, cogidOfKey, Nat.add_lt_add_iff_right, firstSeen_eq_uniqKeys]
    exact uniqKeys_idxOf_lt (rows.map (rowKeyPair wm)) _ _ hmemi hmemj

/-- C4 (witness): the theorem applied to the concrete three-row table
`cRows` at rows 0 and 1. -/
theorem c4_witness :
    ∃ ci cj,
      (cogidColumn false cRows)[0]? = some ci ∧ (cogidColumn false cRows)[1]? = some cj ∧
      (ci = cj ↔ rowKeyPair false (cRows.get ⟨0, by decide⟩) =
        rowKeyPair false (cRows.get ⟨1, by decide⟩)) ∧
      1 ≤ ci ∧ ci ≤ (cRows.map (rowKeyPair false)).toFinset.card ∧
      (∀ m, 1 ≤ m → m ≤ (cRows.map (rowKeyPair false)).toFinset.card →
        m ∈ cogidColumn false cRows) ∧
      (ci < cj ↔ idxOf (cRows.map (rowKeyPair false))
          (rowKeyPair false (cRows.get ⟨0, by decide⟩)) <
        idxOf (cRows.map (rowKeyPair false))
          (rowKeyPair false (cRows.get ⟨1, by decide⟩))) :=
  c4_theorem false cRows 0 1 (by decide) (by decide)

/-! ## Claims C5 and C7: the cognate resolver -/

/-- C5: for every reset row, the resolver searches the automatic table by
`(DOCULECT, IPA, CONCEPT)`; on a match the representative pool is the
automatic rows sharing the matched row's `AUTO_COGID` (never empty, so the
representative is its first row); on no match the pool is the working-table
rows sharing this row's own label and the `"Grouping ..."` notice is the
operator-visible trace of the fallback; an empty pool makes the row its own
representative with the ungrounded-coding notice; and `LONG_COGID` is always
the representative's `(DOCULECT_ID, CONCEPT, IPA)` triple. -/
theorem c5_theorem (cog auto : List GRow) (resets : List String) (row : GRow)
    (h : resetCond resets row = true) :
    (∀ m rest, autoMatches auto row = m :: rest →
      autoPool auto m ≠ [] ∧
      (resolveRow cog auto resets row).1 = (autoPool auto m).headD row) ∧
    (autoMatches auto row = [] →
      (resolveRow cog auto resets row).2.1 = true ∧
      (resolveRow cog auto resets row).1 = (ownLabelPool cog row).headD row) ∧
    (autoMatches auto row = [] → ownLabelPool cog row = [] →
      (resolveRow cog auto resets row).1 = row ∧
      (resolveRow cog auto resets row).2.2 = true) ∧
    rowLongCogid cog auto resets row =
      ((resolveRow cog auto resets row).1.doculect_id,
       (resolveRow cog auto resets row).1.concept,
       (resolveRow cog auto resets row).1.ipa) := by
  refine ⟨?_, ?_, ?_, rfl⟩
  · intro m rest hm
    have hmm : m ∈ autoPool auto m := by
      have hma : m ∈ auto := by
        have h1 : m ∈ autoMatches auto row := hm ▸ List.mem_cons_self m rest
        rw [autoMatches] at h1
        exact (List.mem_filter.mp h1).1
      refine List.mem_filter.mpr ⟨hma, ?_⟩
      simp
    constructor
    · intro hnil
      rw [hnil] at hmm
      exact List.not_mem_nil m hmm
    · cases hp : autoPool auto m with
      | nil => exact absurd (hp ▸ hmm) (List.not_mem_nil m)
      | cons p ps => simp [resolveRow, h, hm, hp]
  · intro hm
    cases hp : ownLabelPool cog row with
    | nil => simp [resolveRow, h, hm, hp]
    | cons p ps => simp [resolveRow, h, hm, hp]
  · intro hm hp
    simp [resolveRow, h, hm, hp]

/-- C5 (witness): the theorem applied to the concrete reset row `gReset`
with the one-row automatic table `gAutoTable`. -/
theorem c5_witness :
    (∀ m rest, autoMatches gAutoTable gReset = m :: rest →
      autoPool gAutoTable m ≠ [] ∧
      (resolveRow [gReset] gAutoTable [] gReset).1 = (autoPool gAutoTable m).headD gReset) ∧
    (autoMatches gAutoTable gReset = [] →
      (resolveRow [gReset] gAutoTable [] gReset).2.1 = true ∧
      (resolveRow [gReset] gAutoTable [] gReset).1 =
        (ownLabelPool [gReset] gReset).headD gReset) ∧
    (autoMatches gAutoTable gReset = [] → ownLabelPool [gReset] gReset = [] →
      (resolveRow [gReset] gAutoTable [] gReset).1 = gReset ∧
      (resolveRow [gReset] gAutoTable [] gReset).2.2 = true) ∧
    rowLongCogid [gReset] gAutoTable [] gReset =
      ((resolveRow [gReset] gAutoTable [] gReset).1.doculect_id,
       (resolveRow [gReset] gAutoTable [] gReset).1.concept,
       (resolveRow [gReset] gAutoTable [] gReset).1.ipa) :=
  c5_theorem [gReset] gAutoTable [] gReset (by decide)

theorem pairStep_mono (cog auto : List GRow) (resets : List String)
    (acc : List (String × String)) (r : GRow) {x : String × String} (hx : x ∈ acc) :
    x ∈ pairStep cog auto resets acc r := by
  rw [pairStep]
  split_ifs <;> simp [hx]

theorem foldl_pairStep_mono (cog auto : List GRow) (resets : List String) :
    ∀ (l : List GRow) (acc : List (String × String)) {x : String × String},
      x ∈ acc → x ∈ l.foldl (pairStep cog auto resets) acc := by
  intro l
  induction l with
  | nil => intro acc x hx; exact hx
  | cons r t ih =>
    intro acc x hx
    rw [List.foldl_cons]
    exact ih _ (pairStep_mono cog auto resets acc r hx)

theorem pair_mem_foldl (cog auto : List GRow) (resets : List String) :
    ∀ (l : List GRow) (acc : List (String × String)) (row : GRow), row ∈ l →
      row.concept ≠ (resolveRow cog auto resets row).1.concept →
      (row.concept, (resolveRow cog auto resets row).1.concept) ∈
        l.foldl (pairStep cog auto resets) acc := by
  intro l
  induction l with
  | nil => intro acc row hrow; simp at hrow
  | cons r t ih =>
    intro acc row hrow hne
    rw [List.foldl_cons]
    rcases List.mem_cons.mp hrow with h0 | h0
    · subst h0
      apply foldl_pairStep_mono
      rw [pairStep, if_pos hne]
      split_ifs with hmem
      · exact hmem
      · simp
    · exact ih _ row h0 hne

/-- C7 (amended): whenever a resolved row's concept differs from its
representative's, the ORDERED pair (row concept, representative concept) is
recorded in the observation set; membership is order-sensitive, the pair is
not identified with its swap. -/
theorem c7_theorem (cog auto : List GRow) (resets : List String) (row : GRow)
    (hrow : row ∈ cog)
    (hne : row.concept ≠ (resolveRow cog auto resets row).1.concept) :
    (row.concept, (resolveRow cog auto resets row).1.concept) ∈
      pairsList cog auto resets := by
  rw [pairsList]
  exact pair_mem_foldl cog auto resets cog [] row hrow hne

/-- C7 (counterexample): the claim asserts the observation set identifies
`(A, B)` with `(B, A)`; on the code it stores the ordered tuple: after
resolving `gTable`, `("A", "B")` is a member but `("B", "A")` is not. -/
theorem c7_counterexample :
    ("A", "B") ∈ pairsList gTable gAutoTable [] ∧
      ("B", "A") ∉ pairsList gTable gAutoTable [] := by
  decide

/-- C7 (witness): the amended theorem applied to the row `gRowA` of
`gTable`, whose representative is `gRowB` with concept `"B"`. -/
theorem c7_witness :
    (gRowA.concept, (resolveRow gTable gAutoTable [] gRowA).1.concept) ∈
      pairsList gTable gAutoTable [] :=
  c7_theorem gTable gAutoTable [] gRowA (by decide) (by decide)

/-! ## Claim C6: the alignment validator -/

theorem toFinset_card_eq_one_iff {α : Type} [DecidableEq α] (l : List α) (hne : l ≠ []) :
    l.toFinset.card = 1 ↔ ∀ a ∈ l, ∀ b ∈ l, a = b := by
  constructor
  · intro h a ha b hb
    obtain ⟨x, hx⟩ := Finset.card_eq_one.mp h
    have hax : a = x := Finset.mem_singleton.mp (hx ▸ List.mem_toFinset.mpr ha)
    have hbx : b = x := Finset.mem_singleton.mp (hx ▸ List.mem_toFinset.mpr hb)
    rw [hax, hbx]
  · intro h
    cases l with
    | nil => exact absurd rfl hne
    | cons c t =>
      apply Finset.card_eq_one.mpr
      refine ⟨c, ?_⟩
      ext y
      rw [List.mem_toFinset, Finset.mem_singleton]
      constructor
      · intro hy
        exact h y hy c (List.mem_cons_self c t)
      · intro hy
        rw [hy]
        exact List.mem_cons_self c t

/-- C6: during validation, a `COGID` group whose rows do not all have the
same alignment token count (a missing alignment being a distinct value) has
every row's alignment replaced by that row's fallback (`AUTO_ALIGNMENT` cell
when the column exists, else `"-"`); a group with a single count value is
left untouched. -/
theorem c6_theorem (hasAuto : Bool) (rows : List VRow) (i : Nat) (hi : i < rows.length) :
    ((∃ a ∈ rows.filter (fun x => x.cogid == rows[i].cogid),
        ∃ b ∈ rows.filter (fun x => x.cogid == rows[i].cogid), alignLen a ≠ alignLen b) →
      (validateAlignments hasAuto rows)[i]? =
        some { rows[i] with alignment := fallbackAlign hasAuto rows[i] }) ∧
    ((∀ a ∈ rows.filter (fun x => x.cogid == rows[i].cogid),
        ∀ b ∈ rows.filter (fun x => x.cogid == rows[i].cogid), alignLen a = alignLen b) →
      (validateAlignments hasAuto rows)[i]? = some rows[i]) := by
  have hv : (validateAlignments hasAuto rows)[i]? =
      some (if ((rows.filter (fun x => x.cogid == rows[i].cogid)).map alignLen).toFinset.card ≠ 1
        then { rows[i] with alignment := fallbackAlign hasAuto rows[i] } else rows[i]) := by
    rw [validateAlignments, List.getElem?_map, List.getElem?_eq_getElem hi]
    rfl
  have hself : rows[i] ∈ rows.filter (fun x => x.cogid == rows[i].cogid) := by
    refine List.mem_filter.mpr ⟨List.getElem_mem hi, ?_⟩
    simp
  have hnonnil : (rows.filter (fun x => x.cogid == rows[i].cogid)).map alignLen ≠ [] := by
    intro h0
    have hmem := List.mem_map_of_mem alignLen hself
    rw [h0] at hmem
    exact List.not_mem_nil _ hmem
  constructor
  · rintro ⟨a, ha, b, hb, hab⟩
    rw [hv, if_pos ?_]
    intro hcard
    exact hab ((toFinset_card_eq_one_iff _ hnonnil).mp hcard (alignLen a)
      (List.mem_map_of_mem alignLen ha) (alignLen b) (List.mem_map_of_mem alignLen hb))
  · intro hall
    rw [hv, if_neg ?_]
    intro hcard
    apply hcard
    apply (toFinset_card_eq_one_iff _ hnonnil).mpr
    intro x hx y hy
    obtain ⟨a, ha, rfl⟩ := List.mem_map.mp hx
    obtain ⟨b, hb, rfl⟩ := List.mem_map.mp hy
    exact hall a ha b hb

/-- C6 (witness): the theorem applied to `vRows` at row 0, whose group (the
rows with `COGID` 1) mixes token counts 3 and 2. -/
theorem c6_witness :
    ((∃ a ∈ vRows.filter (fun x => x.cogid == (vRows.get ⟨0, by decide⟩).cogid),
        ∃ b ∈ vRows.filter (fun x => x.cogid == (vRows.get ⟨0, by decide⟩).cogid),
          alignLen a ≠ alignLen b) →
      (validateAlignments true vRows)[0]? =
        some { vRows.get ⟨0, by decide⟩ with
          alignment := fallbackAlign true (vRows.get ⟨0, by decide⟩) }) ∧
    ((∀ a ∈ vRows.filter (fun x => x.cogid == (vRows.get ⟨0, by decide⟩).cogid),
        ∀ b ∈ vRows.filter (fun x => x.cogid == (vRows.get ⟨0, by decide⟩).cogid),
          alignLen a = alignLen b) →
      (validateAlignments true vRows)[0]? = some (vRows.get ⟨0, by decide⟩)) :=
  c6_theorem true vRows 0 (by decide)

/-! ## Claim C9: the step-0 cognate-label renumbering -/

/-- C9: the step-0 renumbering maps every empty, missing or literal `"nan"`
`COGNATE_SET` cell to the empty cell, and every other label to a positive
integer; within one run (one fixed enumeration `enum` of the distinct
values, standing for `list(set(...))`), two rows receive the same integer
iff their original labels are equal. -/
theorem c9_theorem (enum vals : List (Option String))
    (hcov : ∀ v ∈ vals, v ∈ enum) (i j : Nat)
    (hi : i < vals.length) (hj : j < vals.length) :
    (cellNanish vals[i] = true → (renumbered enum vals)[i]? = some none) ∧
    (cellNanish vals[i] = false →
      ∃ n, 1 ≤ n ∧ (renumbered enum vals)[i]? = some (some n)) ∧
    (cellNanish vals[i] = false → cellNanish vals[j] = false →
      ((renumbered enum vals)[i]? = (renumbered enum vals)[j]? ↔ vals[i] = vals[j])) := by
  have hri : (renumbered enum vals)[i]? =
      some (if cellNanish vals[i] then none else some (idxOf enum vals[i] + 1)) := by
    rw [renumbered, List.getElem?_map, List.getElem?_eq_getElem hi]
    rfl
  have hrj : (renumbered enum vals)[j]? =
      some (if cellNanish vals[j] then none else some (idxOf enum vals[j] + 1)) := by
    rw [renumbered, List.getElem?_map, List.getElem?_eq_getElem hj]
    rfl
  refine ⟨?_, ?_, ?_⟩
  · intro h
    rw [hri, if_pos h]
  · intro h
    rw [hri, if_neg (by simp [h])]
    exact ⟨idxOf enum vals[i] + 1, Nat.le_add_left 1 _, rfl⟩
  · intro h1 h2
    rw [hri, hrj, if_neg (by simp [h1]), if_neg (by simp [h2])]
    constructor
    · intro he
      have h3 : idxOf enum vals[i] + 1 = idxOf enum vals[j] + 1 :=
        Option.some.inj (Option.some.inj he)
      exact (idxOf_inj (hcov _ (List.getElem_mem hi)) (hcov _ (List.getElem_mem hj))).mp
        (Nat.add_right_cancel h3)
    · intro he
      rw [he]

/-- C9 (witness): the theorem applied to the concrete column `c9vals` with
the enumeration `c9enum`, at the two rows both labelled `"7"`. -/
theorem c9_witness :
    (cellNanish (c9vals.get ⟨0, by decide⟩) = true →
      (renumbered c9enum c9vals)[0]? = some none) ∧
    (cellNanish (c9vals.get ⟨0, by decide⟩) = false →
      ∃ n, 1 ≤ n ∧ (renumbered c9enum c9vals)[0]? = some (some n)) ∧
    (cellNanish (c9vals.get ⟨0, by decide⟩) = false →
      cellNanish (c9vals.get ⟨2, by decide⟩) = false →
      ((renumbered c9enum c9vals)[0]? = (renumbered c9enum c9vals)[2]? ↔
        c9vals.get ⟨0, by decide⟩ = c9vals.get ⟨2, by decide⟩)) :=
  c9_theorem c9enum c9vals (by decide) 0 2 (by decide) (by decide)
